import Mathlib

/-!
Verification of the relevance-scoring, deduplication and ranking core of
`pension_monitor.py` (Public Pension Fund Allocation Monitor).

The Python code is shallowly embedded: each Lean definition mirrors one
function or one labelled block of the source.  Text matching is done on
`List Char` with explicit helpers mirroring Python's `in` (substring test),
`str.lower`, `str.strip` and the one regular expression used by the scorer.
Scores are `Int` (Python integers; they can go negative mid-computation).
The MD5 hex digest in `article_hash` is modelled as the identity on the
normalised key string, since only equality of digests is ever used and the
digest is a deterministic function of the key.
-/

/-- Prefix test on character lists: `startsWithChars n h` is true iff `n` is a
prefix of `h`.  Mirrors the anchored part of Python substring search. -/
def startsWithChars : List Char → List Char → Bool
  | [], _ => true
  | _ :: _, [] => false
  | a :: as, b :: bs => a == b && startsWithChars as bs

/-- Substring occurrence test on character lists: true iff `n` occurs
contiguously in the list.  Mirrors Python `n in h` for strings. -/
def substrAt (n : List Char) : List Char → Bool
  | [] => startsWithChars n []
  | c :: cs => startsWithChars n (c :: cs) || substrAt n cs

/-- Python `needle in hay` for strings (substring containment). -/
def strContains (hay needle : String) : Bool :=
  substrAt needle.data hay.data

/-- Python `str.lower` (ASCII case folding; all registry entries and the
concrete inputs used below are ASCII, where the two agree). -/
def lowerStr (s : String) : String :=
  ⟨s.data.map Char.toLower⟩

/-- ASCII whitespace, as stripped by Python `str.strip()` on the inputs
considered here. -/
def isSpaceChar (c : Char) : Bool :=
  c == ' ' || c == '\t' || c == '\n' || c == '\r' || c == '\x0b' || c == '\x0c'

/-- Python `str.strip()`: drop whitespace from both ends. -/
def stripStr (s : String) : String :=
  ⟨((s.data.dropWhile isSpaceChar).reverse.dropWhile isSpaceChar).reverse⟩

/-- The `PENSION_FUNDS` registry: the ordered list of known pension fund
names scanned by the scorer (first match wins). -/
def PENSION_FUNDS : List String := [
  "CalPERS", "CalSTRS", "New York State Common Retirement Fund",
  "New York City Retirement Systems", "Florida State Board of Administration",
  "Texas Teachers Retirement System", "New York State Teachers Retirement System",
  "State of Wisconsin Investment Board", "Washington State Investment Board",
  "Ohio Public Employees Retirement System",
  "North Carolina Retirement Systems", "New Jersey Division of Investment",
  "Virginia Retirement System", "Oregon Investment Council",
  "Michigan Retirement Systems", "Pennsylvania Public School Employees",
  "State Teachers Retirement System of Ohio", "Minnesota State Board of Investment",
  "Colorado PERA", "Massachusetts PRIM",
  "Los Angeles County Employees Retirement", "LACERA",
  "Teacher Retirement System of Texas", "Maryland State Retirement",
  "Connecticut Retirement Plans", "Tennessee Consolidated Retirement System",
  "South Carolina Retirement System", "Iowa Public Employees Retirement System",
  "Los Angeles Fire and Police Pensions", "LAFPP",
  "Missouri State Employees Retirement System", "Kentucky Retirement Systems",
  "Arizona State Retirement System", "Indiana Public Retirement System",
  "San Francisco Employees Retirement System", "SFERS",
  "Illinois Teachers Retirement System", "Illinois State Board of Investment",
  "Illinois Municipal Retirement Fund", "State Universities Retirement System Illinois",
  "Hawaii Employees Retirement System", "New Mexico State Investment Council",
  "Oklahoma Teachers Retirement System", "Nevada Public Employees Retirement System",
  "Kansas Public Employees Retirement System", "Louisiana State Employees Retirement",
  "Utah Retirement Systems", "Rhode Island State Investment Commission",
  "Alabama Retirement Systems", "Mississippi Public Employees Retirement System",
  "San Diego County Employees Retirement", "SDCERA",
  "Orange County Employees Retirement System", "OCERS",
  "Contra Costa County Employees Retirement", "CCCERA",
  "San Bernardino County Employees Retirement",
  "Alameda County Employees Retirement", "ACERA",
  "Sacramento County Employees Retirement",
  "Dallas Police and Fire Pension", "Houston Firefighters Relief and Retirement",
  "Teachers Retirement Association of Minnesota",
  "Public Employee Retirement System of Idaho",
  "Nebraska Investment Council", "Arkansas Teacher Retirement System",
  "West Virginia Investment Management Board",
  "Maine Public Employees Retirement System",
  "New Hampshire Retirement System", "Vermont Pension Investment Commission",
  "Wyoming Retirement System", "Montana Board of Investments",
  "North Dakota State Investment Board", "South Dakota Investment Council",
  "Alaska Permanent Fund", "Delaware Public Employees Retirement System",
  "District of Columbia Retirement Board",
  "Chicago Teachers Pension Fund", "Chicago Municipal Employees",
  "Chicago Police Pension Fund", "Chicago Fire Pension Fund",
  "New York City Teachers Retirement System",
  "New York City Police Pension Fund", "New York City Fire Pension Fund",
  "Philadelphia Board of Pensions", "Detroit General Retirement System",
  "San Jose Federated City Employees Retirement",
  "Employees Retirement System of Texas", "ERS Texas",
  "Pennsylvania State Employees Retirement System", "SERS Pennsylvania",
  "Georgia Teachers Retirement System", "Employees Retirement System of Georgia",
  "Municipal Employees Annuity Benefit Fund Chicago",
  "Denver Employees Retirement Plan", "Jacksonville Police and Fire Pension",
  "Fresno County Employees Retirement", "Kern County Employees Retirement",
  "Tulare County Employees Retirement",
  "Ventura County Employees Retirement", "Santa Barbara County Employees Retirement",
  "Sonoma County Employees Retirement", "Marin County Employees Retirement",
  "San Mateo County Employees Retirement", "Stanislaus County Employees Retirement"]

/-- The `ASSET_CLASSES` registry. -/
def ASSET_CLASSES : List String := [
  "private credit", "private equity", "venture capital",
  "private debt", "direct lending", "mezzanine",
  "growth equity", "buyout fund", "credit fund",
  "alternative credit", "infrastructure debt"]

/-- The `ACTION_KEYWORDS` registry. -/
def ACTION_KEYWORDS : List String := [
  "allocate", "allocated", "allocation", "commit", "committed", "commitment",
  "increase", "increased", "raise", "raised", "approve", "approved",
  "invest", "invested", "investment", "deploy", "deployed",
  "new fund", "fund raise", "fundraise", "capital call",
  "co-invest", "co-investment", "mandate", "awarded",
  "target allocation", "strategic allocation", "rebalance",
  "overweight", "pacing plan", "vintage year",
  "emerging manager", "first-time fund"]

/-- The `EXCLUDE_KEYWORDS` registry. -/
def EXCLUDE_KEYWORDS : List String := [
  "lawsuit", "scandal", "bankruptcy", "fraud",
  "pension crisis", "underfunded", "layoff"]

/-- The generic pension terms checked when no named fund matched. -/
def pension_generics : List String :=
  ["pension", "retirement system", "retirement fund", "public employees"]

/-- A raw search result record.  The five text fields are the dict keys a
RawResult carries on entry; the four optional fields model the metadata
keys that `score_article` writes into the same dict (absent = `none`). -/
structure Article where
  title : String := ""
  url : String := ""
  snippet : String := ""
  source : String := ""
  date : String := ""
  meta_score : Option Int := none
  meta_matched_pension : Option (Option String) := none
  meta_matched_assets : Option (List String) := none
  meta_matched_actions : Option (List String) := none
deriving Repr, DecidableEq

/-- The scanned text: `f"{title} {snippet}".lower()` from `score_article`. -/
def textOf (a : Article) : String :=
  lowerStr (a.title ++ " " ++ a.snippet)

/-- The pension-fund scan of `score_article`: first registry entry whose
lower-cased name occurs in the text (`for fund in PENSION_FUNDS ... break`). -/
def matchedPension (a : Article) : Option String :=
  PENSION_FUNDS.find? (fun fund => strContains (textOf a) (lowerStr fund))

/-- The generic-pension check of `score_article`
(`any(term in text for term in pension_generics)`). -/
def genericPension (a : Article) : Bool :=
  pension_generics.any (fun term => strContains (textOf a) term)

/-- The asset-class scan of `score_article`: all registry phrases occurring
in the text, in registry order. -/
def matchedAssets (a : Article) : List String :=
  ASSET_CLASSES.filter (fun ac => strContains (textOf a) ac)

/-- The action-keyword scan of `score_article`: all registry phrases
occurring in the text, in registry order. -/
def matchedActions (a : Article) : List String :=
  ACTION_KEYWORDS.filter (fun kw => strContains (textOf a) kw)

/-- The exclusion scan of `score_article`: all negative keywords occurring
in the text. -/
def matchedExcl (a : Article) : List String :=
  EXCLUDE_KEYWORDS.filter (fun neg => strContains (textOf a) neg)

/-- One of the magnitude alternatives of the dollar regular expression
`million|billion|mn|bn|m|b`, anchored at the current position. -/
def magWord (cs : List Char) : Bool :=
  startsWithChars "million".data cs || startsWithChars "billion".data cs ||
  startsWithChars "mn".data cs || startsWithChars "bn".data cs ||
  startsWithChars "m".data cs || startsWithChars "b".data cs

/-- The `\s*` then magnitude-word tail of the dollar regular expression. -/
def spacesThenMag : List Char → Bool
  | [] => false
  | c :: cs => magWord (c :: cs) || (isSpaceChar c && spacesThenMag cs)

/-- A character of the class `[\d,.]` in the dollar regular expression. -/
def isDigitCommaDot (c : Char) : Bool :=
  c.isDigit || c == ',' || c == '.'

/-- The `[\d,.]+\s*(million|billion|mn|bn|m|b)` tail of the dollar regular
expression, anchored right after the `$` sign (with backtracking expressed
as disjunction). -/
def numThenMag : List Char → Bool
  | [] => false
  | c :: cs => isDigitCommaDot c && (spacesThenMag cs || numThenMag cs)

/-- Python `re.search` of the pattern `\$[\d,.]+\s*(?:million|billion|mn|bn|m|b)`
over the text: true iff a match starts at some position. -/
def dollarSearch : List Char → Bool
  | [] => false
  | c :: cs => (c == '$' && numThenMag cs) || dollarSearch cs

/-- The score accumulated by `score_article` after steps 1-5 (pension
signal, generic pension signal, asset classes, capped action signal,
dollar bonus, exclusion penalties) and before the relevance gate. -/
def rawScore (a : Article) : Int :=
  (if (matchedPension a).isSome then 30
   else if genericPension a then 15 else 0)
  + 15 * (matchedAssets a).length
  + min ((matchedActions a).length * 5) 25
  + (if dollarSearch (textOf a).data then 10 else 0)
  - 20 * (matchedExcl a).length

/-- The relevance gate of `score_article`:
`if not (pension_match or score >= 15) or not asset_match: score = max(score - 30, 0)`. -/
def gatedScore (a : Article) : Int :=
  if !((matchedPension a).isSome || decide (rawScore a ≥ 15)) || (matchedAssets a).isEmpty
  then max (rawScore a - 30) 0
  else rawScore a

/-- The scorer `score_article`: returns the input record with the four metadata keys
set; `_score` is `min(score, 100)`, `_matched_actions` keeps the first 5
matches. -/
def score_article (a : Article) : Article :=
  { a with
    meta_score := some (min (gatedScore a) 100),
    meta_matched_pension := some (matchedPension a),
    meta_matched_assets := some (matchedAssets a),
    meta_matched_actions := some ((matchedActions a).take 5) }

/-- Read the `_score` key of a scored record (`scored["_score"]`); after
`score_article` the key is always present. -/
def getScore (a : Article) : Int :=
  a.meta_score.getD 0

/-- Lexicographic comparison of character lists by code point, as Python
compares strings. -/
def strLtChars : List Char → List Char → Bool
  | [], [] => false
  | [], _ :: _ => true
  | _ :: _, [] => false
  | a :: as, b :: bs => decide (a < b) || (a == b && strLtChars as bs)

/-- Python `s < t` on strings (lexicographic by code point). -/
def strLt (s t : String) : Bool :=
  strLtChars s.data t.data

/-- The identity normaliser `article_hash`: the deduplication key
`(article.get("url","") or article.get("title","")).lower().strip()`, then
MD5-hex-digested.  The digest is modelled as the identity on the normalised
key (it is a deterministic function of it and only key equality is used). -/
def article_hash (a : Article) : String :=
  stripStr (lowerStr (if a.url == "" then a.title else a.url))

/-- The persisted seen-article cache: an insertion-ordered map from article
hash to ISO-8601 timestamp string, modelled as an association list. -/
abbrev Cache := List (String × String)

/-- Key membership in the cache (`h in seen_cache`). -/
def cacheMem (cache : Cache) (h : String) : Bool :=
  cache.any (fun kv => kv.1 == h)

/-- The loader `load_seen_cache`: the raw contents of `seen_articles.json` arrive as
`some data` when the file exists and parses, and as `none` when the file is
missing or any exception occurs while reading/parsing it (the bare
`except: return` arm).  `cutoff` is the ISO string
`(utcnow() - 30 days).isoformat()`; the dict comprehension keeps entries
with `v > cutoff` (Python compares the ISO strings lexicographically). -/
def load_seen_cache (raw : Option Cache) (cutoff : String) : Cache :=
  match raw with
  | none => []
  | some data => data.filter (fun kv => strLt cutoff kv.2)

/-- Key membership in a `unique` association list. -/
def anyKey (l : List (String × Article)) (h : String) : Bool :=
  l.any (fun p => p.1 == h)

/-- Lookup in a `unique` association list (first binding wins; the
association lists built by `buildUnique` have unique keys, like a Python
dict). -/
def alookup (l : List (String × Article)) (h : String) : Option Article :=
  (l.find? (fun p => p.1 == h)).map Prod.snd

/-- The accumulation loop of `filter_and_rank`: walk the batch in order,
skip hashes already in the loaded cache or already accepted into `unique`,
score the survivors and keep those with `_score >= min_score`.  `unique` is
a Python dict, modelled as an insertion-ordered association list. -/
def buildUnique (seen : Cache) (min_score : Int) :
    List Article → List (String × Article) → List (String × Article)
  | [], acc => acc
  | a :: rest, acc =>
    let h := article_hash a
    if cacheMem seen h then buildUnique seen min_score rest acc
    else if anyKey acc h then buildUnique seen min_score rest acc
    else
      let scored := score_article a
      if min_score ≤ getScore scored then
        buildUnique seen min_score rest (acc ++ [(h, scored)])
      else buildUnique seen min_score rest acc

/-- The comparator of the final `sorted(..., key=lambda x: x["_score"], reverse=True)`:
`x` may stay before `y` exactly when the score of `x` is at least the score
of `y`.  Python's sort is stable and `reverse=True` preserves stability, so
the result is the unique stable sort under this comparator, modelled by
`List.mergeSort`. -/
def scoreDescB (x y : Article) : Bool :=
  decide (getScore y ≤ getScore x)

/-- The pipeline `filter_and_rank` (pure part, save assumed to succeed): dedupe against
the loaded cache and within the batch, score, threshold, mark every kept
hash with the current timestamp `now`, and return the kept records sorted
by `_score` descending together with the updated cache.  Python `sorted`
with `reverse=True` is stable, modelled by `mergeSort` keyed on
score-greater-or-equal.  Newly kept hashes are never already in the cache,
so `seen_cache[h] = now` appends them in `unique` order. -/
def filter_and_rank (articles : List Article) (seen : Cache) (now : String)
    (min_score : Int) : List Article × Cache :=
  let unique := buildUnique seen min_score articles []
  let newCache := seen ++ unique.map (fun p => (p.1, now))
  let ranked := (unique.map Prod.snd).mergeSort scoreDescB
  (ranked, newCache)

/-- The writer `save_seen_cache` writes the cache with `CACHE_FILE.write_text`; the
write can raise (e.g. an unwritable file) and `filter_and_rank` wraps it in
no handler.  The external write outcome is the `saveOk` flag; a raised
exception is `Except.error`. -/
def save_seen_cacheE (saveOk : Bool) (cache : Cache) : Except String Cache :=
  if saveOk then Except.ok cache else Except.error "cache write failed"

/-- The pipeline `filter_and_rank` with the fallible save made explicit: the source
calls `save_seen_cache(seen_cache)` after updating the cache and before
sorting, so a write failure propagates out of `filter_and_rank` and the
ranked list is never returned. -/
def filterAndRankE (saveOk : Bool) (articles : List Article) (seen : Cache)
    (now : String) (min_score : Int) : Except String (List Article) :=
  let unique := buildUnique seen min_score articles []
  let newCache := seen ++ unique.map (fun p => (p.1, now))
  match save_seen_cacheE saveOk newCache with
  | Except.error e => Except.error e
  | Except.ok _ =>
    Except.ok ((unique.map Prod.snd).mergeSort scoreDescB)

/-- The record that `filter_and_rank` accepts for a given hash `h`: the
first article of the batch whose hash is `h` and whose score meets the
threshold, provided `h` is not already in the loaded cache. -/
def firstAccepted (seen : Cache) (ms : Int) (batch : List Article) (h : String) :
    Option Article :=
  if cacheMem seen h then none
  else batch.find? (fun b => article_hash b == h && decide (ms ≤ getScore (score_article b)))

/-! Concrete records used by counterexamples and witnesses. -/

/-- A record with a pension name, action words and a dollar amount but no
asset-class phrase. -/
def noAssetArticle : Article :=
  { title := "CalPERS approved a $100 million commitment" }

/-- A record with a pension name, one asset class and five exclusion
keywords. -/
def exclusionHeavyArticle : Article :=
  { title := "CalPERS private equity lawsuit scandal bankruptcy fraud underfunded" }

/-- A low-relevance record sharing its url with `strongDup`. -/
def weakDup : Article :=
  { title := "the quick brown fox", url := "u" }

/-- A high-relevance record sharing its url with `weakDup`. -/
def strongDup : Article :=
  { title := "CalPERS approves private equity commitment", url := "u" }

/-- A record whose url is a single space (truthy in Python, empty after
trimming). -/
def blankUrlArticle : Article :=
  { title := "x", url := " " }

/-- A record whose url is exactly empty. -/
def emptyUrlArticle : Article :=
  { title := "x", url := "" }

/-- A fixed run timestamp. -/
def ts0 : String := "2026-10-12T00:00:00"

/-- A later run timestamp. -/
def ts1 : String := "2026-10-13T00:00:00"

/-- Structure updates in `score_article` do not touch `url` or `title`, so
the dedup hash of a scored record equals the hash of its raw record. -/
theorem article_hash_score_article (a : Article) :
    article_hash (score_article a) = article_hash a := rfl

/-- C9: on a missing backing file or any parse failure (the `none` input),
`load_seen_cache` returns the empty map; the function is total, so no
error escapes to fail the run. -/
theorem load_failure_yields_empty (cutoff : String) :
    load_seen_cache none cutoff = [] := rfl

/-- Lexicographic comparison is asymmetric, so a timestamp strictly below
the cutoff is never strictly above it. -/
theorem strLtChars_asymm : ∀ {l r : List Char},
    strLtChars l r = true → strLtChars r l = false := by
  intro l
  induction l with
  | nil => intro r h; cases r with
    | nil => simp [strLtChars] at h
    | cons b bs => simp [strLtChars]
  | cons a as ih =>
    intro r h
    cases r with
    | nil => simp [strLtChars] at h
    | cons b bs =>
      simp only [strLtChars, Bool.or_eq_true, Bool.and_eq_true,
        decide_eq_true_eq, beq_iff_eq] at h ⊢
      rcases h with hab | ⟨hab, htail⟩
      · simp only [Bool.or_eq_false_iff, Bool.and_eq_false_iff, decide_eq_false_iff_not,
          beq_eq_false_iff_ne, ne_eq]
        exact ⟨not_lt_of_lt hab, Or.inl (ne_of_gt hab)⟩
      · subst hab
        simp only [Bool.or_eq_false_iff, Bool.and_eq_false_iff, decide_eq_false_iff_not,
          beq_eq_false_iff_ne, ne_eq]
        exact ⟨lt_irrefl a, Or.inr (ih htail)⟩

/-- Asymmetry of the Python string order used on cache timestamps. -/
theorem strLt_asymm {s t : String} (h : strLt s t = true) : strLt t s = false :=
  strLtChars_asymm h

/-- C8: `load_seen_cache` prunes by TTL on load: an entry whose timestamp
is older (lexicographically smaller, i.e. an earlier instant for ISO-8601
strings) than the 30-day cutoff is absent from the returned map, and an
entry of the raw store with a timestamp newer than the cutoff is present. -/
theorem load_ttl_pruning (raw : Cache) (cutoff k v : String) :
    (strLt v cutoff = true → (k, v) ∉ load_seen_cache (some raw) cutoff) ∧
    ((k, v) ∈ raw → strLt cutoff v = true → (k, v) ∈ load_seen_cache (some raw) cutoff) := by
  constructor
  · intro hv hmem
    simp only [load_seen_cache, List.mem_filter] at hmem
    exact Bool.false_ne_true ((strLt_asymm hv).symm.trans hmem.2)
  · intro hmem hv
    simp only [load_seen_cache, List.mem_filter]
    exact ⟨hmem, hv⟩

theorem load_ttl_pruning_witness :
    ("k1", "2026-09-11T00:00:00") ∉
      load_seen_cache (some [("k1", "2026-09-11T00:00:00"), ("k2", "2026-09-13T00:00:00")])
        "2026-09-12T00:00:00" ∧
    ("k2", "2026-09-13T00:00:00") ∈
      load_seen_cache (some [("k1", "2026-09-11T00:00:00"), ("k2", "2026-09-13T00:00:00")])
        "2026-09-12T00:00:00" :=
  ⟨(load_ttl_pruning [("k1", "2026-09-11T00:00:00"), ("k2", "2026-09-13T00:00:00")]
      "2026-09-12T00:00:00" "k1" "2026-09-11T00:00:00").1 (by decide),
   (load_ttl_pruning [("k1", "2026-09-11T00:00:00"), ("k2", "2026-09-13T00:00:00")]
      "2026-09-12T00:00:00" "k2" "2026-09-13T00:00:00").2 (by decide) (by decide)⟩

/-- C10: `score_article` preserves the five original fields of the record
and sets exactly the four metadata fields (`_score`, `_matched_pension`,
`_matched_assets`, `_matched_actions`); nothing else about the record
changes. -/
theorem score_article_frame (a : Article) :
    (score_article a).title = a.title ∧ (score_article a).url = a.url ∧
    (score_article a).snippet = a.snippet ∧ (score_article a).source = a.source ∧
    (score_article a).date = a.date ∧
    (score_article a).meta_score = some (min (gatedScore a) 100) ∧
    (score_article a).meta_matched_pension = some (matchedPension a) ∧
    (score_article a).meta_matched_assets = some (matchedAssets a) ∧
    (score_article a).meta_matched_actions = some ((matchedActions a).take 5) :=
  ⟨rfl, rfl, rfl, rfl, rfl, rfl, rfl, rfl, rfl⟩

/-- C2 (counterexample evaluation): a record matching a pension fund, one
asset class and five exclusion keywords scores 30 + 15 - 100 = -55; the
gate does not fire (pension and asset signals both matched), and the final
clamp is only `min(score, 100)`, so `_score` is -55, below the claimed
lower bound 0 and contradicting the docstring range 0-100. -/
theorem score_below_zero_eval :
    getScore (score_article exclusionHeavyArticle) = -55 := by decide

/-- C1 (counterexample): a record with no asset-class phrase whose other
signals total 60 gets `_score = max(60 - 30, 0) = 30`, not 0. -/
theorem gate_law_counterexample :
    matchedAssets noAssetArticle = [] ∧
    getScore (score_article noAssetArticle) = 30 ∧
    getScore (score_article noAssetArticle) ≠ 0 := by decide

/-- C1 (amended): when no asset-class phrase appears in the lower-cased
title+snippet text, the gate reduces the pre-gate score by 30 and floors
it at 0 (then the final clamp applies); the score is therefore 0 exactly
when the remaining signals total at most 30, not unconditionally. -/
theorem gate_law_amended (a : Article) (h : matchedAssets a = []) :
    getScore (score_article a) = min (max (rawScore a - 30) 0) 100 ∧
    (rawScore a ≤ 30 → getScore (score_article a) = 0) := by
  have hg : gatedScore a = max (rawScore a - 30) 0 := by
    simp [gatedScore, h]
  refine ⟨by simp [getScore, score_article, hg], ?_⟩
  intro hle
  simp only [getScore, score_article, hg, Option.getD_some]
  omega

theorem gate_law_amended_witness :
    matchedAssets noAssetArticle = [] ∧
    (getScore (score_article noAssetArticle) =
        min (max (rawScore noAssetArticle - 30) 0) 100 ∧
      (rawScore noAssetArticle ≤ 30 → getScore (score_article noAssetArticle) = 0)) :=
  ⟨by decide, gate_law_amended noAssetArticle (by decide)⟩

/-- C7 (counterexample): a url consisting of one space is truthy in Python,
so it is selected before trimming; a record with url " " hashes the empty
string while a record with url "" falls back to its title.  Their urls
agree after lower-casing and trimming (and their titles agree outright),
yet the identity keys differ. -/
theorem identity_key_counterexample :
    stripStr (lowerStr blankUrlArticle.url) = stripStr (lowerStr emptyUrlArticle.url) ∧
    blankUrlArticle.title = emptyUrlArticle.title ∧
    article_hash blankUrlArticle ≠ article_hash emptyUrlArticle := by decide

/-- C7 (amended): two records whose urls are both non-empty and agree after
lower-casing and whitespace-trimming (or whose urls are both exactly the
empty string and whose titles agree after lower-casing and trimming)
receive the same identity key, regardless of any difference in their
snippet, date or source fields. -/
theorem identity_key_stable (a b : Article)
    (h : (a.url ≠ "" ∧ b.url ≠ "" ∧ stripStr (lowerStr a.url) = stripStr (lowerStr b.url))
       ∨ (a.url = "" ∧ b.url = "" ∧ stripStr (lowerStr a.title) = stripStr (lowerStr b.title))) :
    article_hash a = article_hash b := by
  rcases h with ⟨ha, hb, hs⟩ | ⟨ha, hb, hs⟩
  · simpa [article_hash, ha, hb] using hs
  · simpa [article_hash, ha, hb] using hs

theorem identity_key_stable_witness :
    article_hash { url := "HTTPS://Example.com/story ", snippet := "from provider A" } =
    article_hash { url := "https://example.com/story", snippet := "from provider B",
                   date := "2026-10-11" } :=
  identity_key_stable
    { url := "HTTPS://Example.com/story ", snippet := "from provider A" }
    { url := "https://example.com/story", snippet := "from provider B",
      date := "2026-10-11" }
    (Or.inl (by decide))

/-- C3: `filter_and_rank` calls `save_seen_cache` with no exception
handler, after the accept loop but before sorting and returning; when the
cache write raises, the exception propagates and the ranked list is never
returned, even though the same batch produces a non-empty ranked list when
the write succeeds.  The claim that a persist failure is only a
warning-level condition is the documented intent, but the code aborts. -/
theorem persist_failure_aborts_rank :
    filterAndRankE true [strongDup] [] ts0 25 = Except.ok [score_article strongDup] ∧
    filterAndRankE false [strongDup] [] ts0 25 = Except.error "cache write failed" := by
  have hu : buildUnique [] 25 [strongDup] [] = [(article_hash strongDup, score_article strongDup)] := by
    decide
  constructor
  · simp [filterAndRankE, hu, save_seen_cacheE]
  · rfl

/-- C4 (counterexample): two records in one batch share a url (hence an
identity key); the first scores 0 and is rejected by the threshold, so the
later duplicate is scored anyway, accepted, and is the one the ranked
output derives from — later duplicates are not unconditionally dropped and
the survivor is not always derived from the first occurrence. -/
theorem within_batch_dedup_counterexample :
    article_hash weakDup = article_hash strongDup ∧
    getScore (score_article weakDup) < 25 ∧
    25 ≤ getScore (score_article strongDup) ∧
    (filter_and_rank [weakDup, strongDup] [] ts0 25).1 = [score_article strongDup] := by
  refine ⟨by decide, by decide, by decide, ?_⟩
  have hu : buildUnique [] 25 [weakDup, strongDup] []
      = [(article_hash strongDup, score_article strongDup)] := by decide
  simp [filter_and_rank, hu]

/-! Association-list lemmas for the `unique` map and the cache. -/

/-- A key absent from an association list looks up to nothing. -/
theorem alookup_eq_none_of_anyKey :
    ∀ {l : List (String × Article)} {h : String},
      anyKey l h = false → alookup l h = none := by
  intro l
  induction l with
  | nil => intro h _; rfl
  | cons q qs ih =>
    intro h hk
    simp only [anyKey, List.any_cons, Bool.or_eq_false_iff] at hk
    rw [alookup, List.find?_cons_of_neg _ (by simp [hk.1])]
    exact ih hk.2

/-- Key membership distributes over append. -/
theorem anyKey_append (l r : List (String × Article)) (h : String) :
    anyKey (l ++ r) h = (anyKey l h || anyKey r h) := by
  simp [anyKey]

theorem alookup_append :
    ∀ (l r : List (String × Article)) (h : String),
      alookup (l ++ r) h = if anyKey l h then alookup l h else alookup r h := by
  intro l
  induction l with
  | nil => intro r h; simp [alookup, anyKey]
  | cons q qs ih =>
    intro r h
    by_cases hq : (q.1 == h) = true
    · simp [alookup, anyKey, hq]
    · have hqf : (q.1 == h) = false := by simpa using hq
      have := ih r h
      simp only [alookup, anyKey] at this
      simp only [alookup, anyKey, List.cons_append, List.any_cons, hqf, Bool.false_or]
      rw [show List.find? (fun p => p.1 == h) (q :: (qs ++ r))
            = List.find? (fun p => p.1 == h) (qs ++ r) from
          List.find?_cons_of_neg _ (by simp [hqf])]
      rw [show List.find? (fun p => p.1 == h) (q :: qs)
            = List.find? (fun p => p.1 == h) qs from
          List.find?_cons_of_neg _ (by simp [hqf])]
      exact this

theorem anyKey_eq_false_iff (l : List (String × Article)) (h : String) :
    anyKey l h = false ↔ h ∉ l.map Prod.fst := by
  simp only [anyKey, List.any_eq_false, List.mem_map, not_exists]
  constructor
  · rintro hall p ⟨hp, rfl⟩
    exact hall p hp (by simp)
  · intro hnm p hp hph
    exact hnm p ⟨hp, by simpa using hph⟩

theorem alookup_of_mem_nodup :
    ∀ {l : List (String × Article)}, (l.map Prod.fst).Nodup →
      ∀ {p : String × Article}, p ∈ l → alookup l p.1 = some p.2 := by
  intro l
  induction l with
  | nil => intro _ p hp; simp at hp
  | cons q qs ih =>
    intro hn p hp
    rw [List.map_cons] at hn
    have hn1 := List.nodup_cons.mp hn
    rcases List.mem_cons.mp hp with rfl | hp
    · rw [alookup, show List.find? (fun r => r.1 == p.1) (p :: qs) = some p from
          List.find?_cons_of_pos _ (by simp)]
      rfl
    · have hq : (q.1 == p.1) = false := by
        have hne : q.1 ≠ p.1 := fun he => hn1.1 (he ▸ List.mem_map.mpr ⟨p, hp, rfl⟩)
        simpa using hne
      rw [alookup, show List.find? (fun r => r.1 == p.1) (q :: qs)
            = List.find? (fun r => r.1 == p.1) qs from
          List.find?_cons_of_neg _ (by simp [hq])]
      exact ih hn1.2 hp

theorem alookup_isSome_iff_anyKey :
    ∀ (l : List (String × Article)) (h : String),
      (alookup l h).isSome = anyKey l h := by
  intro l
  induction l with
  | nil => intro h; rfl
  | cons q qs ih =>
    intro h
    by_cases hq : (q.1 == h) = true
    · rw [alookup, show List.find? (fun p => p.1 == h) (q :: qs) = some q from
          List.find?_cons_of_pos _ hq]
      simp [anyKey, hq]
    · have hqf : (q.1 == h) = false := by simpa using hq
      rw [alookup, show List.find? (fun p => p.1 == h) (q :: qs)
            = List.find? (fun p => p.1 == h) qs from
          List.find?_cons_of_neg _ (by simp [hqf])]
      have := ih h
      rw [alookup] at this
      rw [this]
      simp [anyKey, hqf]

theorem buildUnique_extends (seen : Cache) (ms : Int) :
    ∀ (batch : List Article) (acc : List (String × Article)),
      ∃ ext, buildUnique seen ms batch acc = acc ++ ext := by
  intro batch
  induction batch with
  | nil => intro acc; exact ⟨[], (List.append_nil acc).symm⟩
  | cons a rest ih =>
    intro acc
    rw [buildUnique]
    by_cases hc : cacheMem seen (article_hash a) = true
    · simpa [hc] using ih acc
    · have hcf : cacheMem seen (article_hash a) = false := by simpa using hc
      by_cases hk : anyKey acc (article_hash a) = true
      · simpa [hcf, hk] using ih acc
      · have hkf : anyKey acc (article_hash a) = false := by simpa using hk
        by_cases hs : ms ≤ getScore (score_article a)
        · obtain ⟨ext, hext⟩ := ih (acc ++ [(article_hash a, score_article a)])
          refine ⟨(article_hash a, score_article a) :: ext, ?_⟩
          simp [hcf, hkf, hs, hext]
        · simpa [hcf, hkf, hs] using ih acc

theorem buildUnique_hash_invariant (seen : Cache) (ms : Int) :
    ∀ (batch : List Article) (acc : List (String × Article)),
      (∀ p ∈ acc, article_hash p.2 = p.1) →
      ∀ p ∈ buildUnique seen ms batch acc, article_hash p.2 = p.1 := by
  intro batch
  induction batch with
  | nil => intro acc hacc p hp; exact hacc p hp
  | cons a rest ih =>
    intro acc hacc p hp
    rw [buildUnique] at hp
    by_cases hc : cacheMem seen (article_hash a) = true
    · simp only [hc, if_true] at hp
      exact ih acc hacc p hp
    · have hcf : cacheMem seen (article_hash a) = false := by simpa using hc
      simp only [hcf, Bool.false_eq_true, if_false] at hp
      by_cases hk : anyKey acc (article_hash a) = true
      · simp only [hk, if_true] at hp
        exact ih acc hacc p hp
      · have hkf : anyKey acc (article_hash a) = false := by simpa using hk
        simp only [hkf, Bool.false_eq_true, if_false] at hp
        by_cases hs : ms ≤ getScore (score_article a)
        · simp only [if_pos hs] at hp
          refine ih _ ?_ p hp
          intro q hq
          rcases List.mem_append.mp hq with hq | hq
          · exact hacc q hq
          · rcases List.mem_singleton.mp hq with rfl
            exact article_hash_score_article a
        · simp only [if_neg hs] at hp
          exact ih acc hacc p hp

theorem buildUnique_keys_nodup (seen : Cache) (ms : Int) :
    ∀ (batch : List Article) (acc : List (String × Article)),
      ((acc.map Prod.fst).Nodup) →
      (((buildUnique seen ms batch acc).map Prod.fst).Nodup) := by
  intro batch
  induction batch with
  | nil => intro acc hacc; exact hacc
  | cons a rest ih =>
    intro acc hacc
    rw [buildUnique]
    by_cases hc : cacheMem seen (article_hash a) = true
    · simp only [hc, if_true]
      exact ih acc hacc
    · have hcf : cacheMem seen (article_hash a) = false := by simpa using hc
      simp only [hcf, Bool.false_eq_true, if_false]
      by_cases hk : anyKey acc (article_hash a) = true
      · simp only [hk, if_true]
        exact ih acc hacc
      · have hkf : anyKey acc (article_hash a) = false := by simpa using hk
        simp only [hkf, Bool.false_eq_true, if_false]
        by_cases hs : ms ≤ getScore (score_article a)
        · simp only [if_pos hs]
          refine ih _ ?_
          rw [List.map_append]
          refine List.Nodup.append hacc (by simp) ?_
          intro x hx hx1
          rcases List.mem_singleton.mp (by simpa using hx1) with rfl
          exact (anyKey_eq_false_iff acc (article_hash a)).mp hkf hx
        · simp only [if_neg hs]
          exact ih acc hacc

theorem firstAccepted_cons_of_pred_false (seen : Cache) (ms : Int) (a : Article)
    (rest : List Article) (h : String)
    (hpred : cacheMem seen h = false →
      (article_hash a == h && decide (ms ≤ getScore (score_article a))) = false) :
    firstAccepted seen ms (a :: rest) h = firstAccepted seen ms rest h := by
  rw [firstAccepted, firstAccepted]
  by_cases hch : cacheMem seen h = true
  · simp [hch]
  · have hchf : cacheMem seen h = false := by simpa using hch
    simp only [hchf, Bool.false_eq_true, if_false]
    rw [show List.find?
          (fun b => article_hash b == h && decide (ms ≤ getScore (score_article b))) (a :: rest)
        = List.find?
          (fun b => article_hash b == h && decide (ms ≤ getScore (score_article b))) rest from
      List.find?_cons_of_neg _ (by simp [hpred hchf])]

theorem firstAccepted_cons_of_hit (seen : Cache) (ms : Int) (a : Article) (rest : List Article)
    (hcf : cacheMem seen (article_hash a) = false) (hs : ms ≤ getScore (score_article a)) :
    firstAccepted seen ms (a :: rest) (article_hash a) = some a := by
  rw [firstAccepted]
  simp only [hcf, Bool.false_eq_true, if_false]
  rw [show List.find?
        (fun b => article_hash b == article_hash a && decide (ms ≤ getScore (score_article b)))
        (a :: rest) = some a from
    List.find?_cons_of_pos _ (by simp [hs])]

theorem buildUnique_alookup (seen : Cache) (ms : Int) :
    ∀ (batch : List Article) (acc : List (String × Article)) (h : String),
      alookup (buildUnique seen ms batch acc) h =
        if anyKey acc h then alookup acc h
        else (firstAccepted seen ms batch h).map score_article := by
  intro batch
  induction batch with
  | nil =>
    intro acc h
    by_cases hk : anyKey acc h = true
    · simp [buildUnique, hk]
    · have hkf : anyKey acc h = false := by simpa using hk
      simp [buildUnique, hkf, firstAccepted, alookup_eq_none_of_anyKey hkf]
  | cons a rest ih =>
    intro acc h
    rw [buildUnique]
    by_cases hc : cacheMem seen (article_hash a) = true
    · simp only [hc, if_true]
      rw [ih acc h]
      by_cases hkh : anyKey acc h = true
      · simp [hkh]
      · have hkhf : anyKey acc h = false := by simpa using hkh
        simp only [hkhf, Bool.false_eq_true, if_false]
        rw [firstAccepted_cons_of_pred_false seen ms a rest h]
        intro hchf
        have hne : (article_hash a == h) = false := by
          rcases eq_or_ne (article_hash a) h with he | hne
          · rw [he] at hc; rw [hc] at hchf; cases hchf
          · simpa using hne
        simp [hne]
    · have hcf : cacheMem seen (article_hash a) = false := by simpa using hc
      simp only [hcf, Bool.false_eq_true, if_false]
      by_cases hk : anyKey acc (article_hash a) = true
      · simp only [hk, if_true]
        rw [ih acc h]
        by_cases hkh : anyKey acc h = true
        · simp [hkh]
        · have hkhf : anyKey acc h = false := by simpa using hkh
          simp only [hkhf, Bool.false_eq_true, if_false]
          rw [firstAccepted_cons_of_pred_false seen ms a rest h]
          intro _
          have hne : (article_hash a == h) = false := by
            rcases eq_or_ne (article_hash a) h with he | hne
            · rw [he] at hk; rw [hk] at hkhf; cases hkhf
            · simpa using hne
          simp [hne]
      · have hkf : anyKey acc (article_hash a) = false := by simpa using hk
        simp only [hkf, Bool.false_eq_true, if_false]
        by_cases hs : ms ≤ getScore (score_article a)
        · simp only [if_pos hs]
          rw [ih (acc ++ [(article_hash a, score_article a)]) h]
          rw [anyKey_append, alookup_append]
          by_cases hkh : anyKey acc h = true
          · simp [hkh]
          · have hkhf : anyKey acc h = false := by simpa using hkh
            rcases eq_or_ne (article_hash a) h with rfl | hne
            · simp only [hkhf, Bool.false_or, Bool.false_eq_true, if_false]
              rw [firstAccepted_cons_of_hit seen ms a rest hcf hs]
              simp [anyKey, alookup]
            · have hne2 : (article_hash a == h) = false := by simpa using hne
              have hsk : anyKey [(article_hash a, score_article a)] h = false := by
                simp [anyKey, hne2]
              simp only [hkhf, hsk, Bool.false_or, Bool.false_eq_true, if_false]
              rw [firstAccepted_cons_of_pred_false seen ms a rest h
                (fun _ => by simp [hne2])]
        · simp only [if_neg hs]
          rw [ih acc h]
          by_cases hkh : anyKey acc h = true
          · simp [hkh]
          · have hkhf : anyKey acc h = false := by simpa using hkh
            simp only [hkhf, Bool.false_eq_true, if_false]
            rw [firstAccepted_cons_of_pred_false seen ms a rest h
              (fun _ => by simp [hs])]

theorem buildUnique_empty_of (seen : Cache) (ms : Int) :
    ∀ (batch : List Article),
      (∀ a ∈ batch, cacheMem seen (article_hash a) = true ∨ getScore (score_article a) < ms) →
      buildUnique seen ms batch [] = [] := by
  intro batch
  induction batch with
  | nil => intro _; rfl
  | cons a rest ih =>
    intro hall
    rw [buildUnique]
    rcases hall a (List.mem_cons_self a rest) with hc | hlt
    · simp only [hc, if_true]
      exact ih (fun b hb => hall b (List.mem_cons_of_mem a hb))
    · by_cases hc : cacheMem seen (article_hash a) = true
      · simp only [hc, if_true]
        exact ih (fun b hb => hall b (List.mem_cons_of_mem a hb))
      · have hcf : cacheMem seen (article_hash a) = false := by simpa using hc
        have hsf : ¬ ms ≤ getScore (score_article a) := not_le.mpr hlt
        simp only [hcf, Bool.false_eq_true, if_false, anyKey, List.any_nil, if_neg hsf]
        exact ih (fun b hb => hall b (List.mem_cons_of_mem a hb))

/-- C4 (amended): the ranked output never contains two results with the
same identity key, and every output element is the scored version of the
first batch element with that key whose score meets the threshold (given
the key is not in the loaded store) — the first ACCEPTED occurrence wins,
not necessarily the first occurrence. -/
theorem within_batch_dedup_amended (batch : List Article) (seen : Cache)
    (now : String) (ms : Int) :
    (((filter_and_rank batch seen now ms).1).map article_hash).Nodup ∧
    ∀ x, x ∈ (filter_and_rank batch seen now ms).1 →
      ∃ a, firstAccepted seen ms batch (article_hash x) = some a ∧ x = score_article a := by
  have hperm : List.Perm ((filter_and_rank batch seen now ms).1)
      ((buildUnique seen ms batch []).map Prod.snd) :=
    List.mergeSort_perm _ _
  have hkn : ((buildUnique seen ms batch []).map Prod.fst).Nodup :=
    buildUnique_keys_nodup seen ms batch [] (by simp)
  have hhash : ∀ p ∈ buildUnique seen ms batch [], article_hash p.2 = p.1 :=
    buildUnique_hash_invariant seen ms batch [] (by simp)
  constructor
  · have hmap : ((buildUnique seen ms batch []).map Prod.snd).map article_hash
        = (buildUnique seen ms batch []).map Prod.fst := by
      rw [List.map_map]
      exact List.map_congr_left (fun p hp => hhash p hp)
    have : List.Perm (((filter_and_rank batch seen now ms).1).map article_hash)
        ((buildUnique seen ms batch []).map Prod.fst) := by
      rw [← hmap]
      exact hperm.map article_hash
    exact (this.nodup_iff).mpr hkn
  · intro x hx
    have hxv : x ∈ (buildUnique seen ms batch []).map Prod.snd := hperm.mem_iff.mp hx
    obtain ⟨p, hp, hpx⟩ := List.mem_map.mp hxv
    have hkey : article_hash x = p.1 := by rw [← hpx]; exact hhash p hp
    have hlook : alookup (buildUnique seen ms batch []) p.1 = some p.2 :=
      alookup_of_mem_nodup hkn hp
    have hchar := buildUnique_alookup seen ms batch [] p.1
    simp only [anyKey, List.any_nil, Bool.false_eq_true, if_false] at hchar
    rw [hchar] at hlook
    obtain ⟨a, ha1, ha2⟩ := Option.map_eq_some'.mp hlook
    refine ⟨a, ?_, ?_⟩
    · rw [hkey]; exact ha1
    · rw [← hpx, ← ha2]

theorem cacheMem_append (l r : Cache) (h : String) :
    cacheMem (l ++ r) h = (cacheMem l h || cacheMem r h) := by
  simp [cacheMem]

theorem cacheMem_map_fst :
    ∀ (u : List (String × Article)) (now h : String),
      cacheMem (u.map (fun p => (p.1, now))) h = anyKey u h := by
  intro u
  induction u with
  | nil => intro now h; rfl
  | cons p ps ih =>
    intro now h
    simp only [List.map_cons, cacheMem, anyKey, List.any_cons] at ih ⊢
    rw [ih now h]

/-- C5: running the pipeline a second time on the same batch with the
updated store yields nothing: every accepted item is now in the store and
every other item is rejected again by the deterministic scorer; the first
run is non-empty as soon as one unseen item passes the threshold. -/
theorem rank_idempotent (batch : List Article) (seen : Cache) (now1 now2 : String)
    (ms : Int)
    (hsome : ∃ a, a ∈ batch ∧ cacheMem seen (article_hash a) = false ∧
      ms ≤ getScore (score_article a)) :
    (filter_and_rank batch seen now1 ms).1 ≠ [] ∧
    (filter_and_rank batch (filter_and_rank batch seen now1 ms).2 now2 ms).1 = [] := by
  obtain ⟨a, ha, hcf, hs⟩ := hsome
  have hchar := buildUnique_alookup seen ms batch [] (article_hash a)
  simp only [anyKey, List.any_nil, Bool.false_eq_true, if_false] at hchar
  have hfa : (firstAccepted seen ms batch (article_hash a)).isSome := by
    rw [firstAccepted]
    simp only [hcf, Bool.false_eq_true, if_false]
    exact List.find?_isSome.mpr ⟨a, ha, by simp [hs]⟩
  have hlook : (alookup (buildUnique seen ms batch []) (article_hash a)).isSome := by
    rw [hchar, Option.isSome_map']
    exact hfa
  have hune : buildUnique seen ms batch [] ≠ [] := by
    intro hnil
    rw [hnil] at hlook
    simp [alookup] at hlook
  constructor
  · intro hnil
    have h0 := congrArg List.length hnil
    simp only [filter_and_rank, List.length_mergeSort, List.length_map,
      List.length_nil] at h0
    exact hune (List.length_eq_zero.mp h0)
  · have hall : ∀ b ∈ batch,
        cacheMem (filter_and_rank batch seen now1 ms).2 (article_hash b) = true ∨
        getScore (score_article b) < ms := by
      intro b hb
      by_cases hmsb : ms ≤ getScore (score_article b)
      · left
        have hc2 : (filter_and_rank batch seen now1 ms).2
            = seen ++ (buildUnique seen ms batch []).map (fun p => (p.1, now1)) := rfl
        rw [hc2, cacheMem_append, cacheMem_map_fst]
        by_cases hcb : cacheMem seen (article_hash b) = true
        · rw [hcb, Bool.true_or]
        · have hcbf : cacheMem seen (article_hash b) = false := by simpa using hcb
          have hcharb := buildUnique_alookup seen ms batch [] (article_hash b)
          simp only [anyKey, List.any_nil, Bool.false_eq_true, if_false] at hcharb
          have hfb : (firstAccepted seen ms batch (article_hash b)).isSome := by
            rw [firstAccepted]
            simp only [hcbf, Bool.false_eq_true, if_false]
            exact List.find?_isSome.mpr ⟨b, hb, by simp [hmsb]⟩
          have hlookb : (alookup (buildUnique seen ms batch []) (article_hash b)).isSome := by
            rw [hcharb, Option.isSome_map']
            exact hfb
          have hak : anyKey (buildUnique seen ms batch []) (article_hash b) = true := by
            rw [← alookup_isSome_iff_anyKey]
            exact hlookb
          rw [hak, Bool.or_true]
      · right
        exact not_le.mp hmsb
    have hempty : buildUnique ((filter_and_rank batch seen now1 ms).2) ms batch [] = [] :=
      buildUnique_empty_of _ ms batch hall
    show ((buildUnique ((filter_and_rank batch seen now1 ms).2) ms batch []).map
        Prod.snd).mergeSort scoreDescB = []
    rw [hempty]
    simp

theorem rank_idempotent_witness :
    (filter_and_rank [strongDup] [] ts0 25).1 ≠ [] ∧
    (filter_and_rank [strongDup] (filter_and_rank [strongDup] [] ts0 25).2 ts1 25).1 = [] :=
  rank_idempotent [strongDup] [] ts0 ts1 25
    ⟨strongDup, by simp, by decide, by decide⟩

/-- C6: the ranked output is sorted by score non-increasing, and for every
score value the equal-score items appear in exactly the order they had in
the deduplicated accept list — the stable-sort guarantee of Python
`sorted` with `reverse=True`. -/
theorem rank_output_sorted_stable (batch : List Article) (seen : Cache)
    (now : String) (ms : Int) :
    ((filter_and_rank batch seen now ms).1).Pairwise
      (fun x y => getScore y ≤ getScore x) ∧
    ∀ s : Int, ((filter_and_rank batch seen now ms).1).filter (fun x => getScore x == s)
      = ((buildUnique seen ms batch []).map Prod.snd).filter (fun x => getScore x == s) := by
  have htrans : ∀ (a b c : Article),
      scoreDescB a b → scoreDescB b c → scoreDescB a c := by
    intro a b c hab hbc
    simp only [scoreDescB, decide_eq_true_eq] at hab hbc ⊢
    omega
  have htotal : ∀ (a b : Article), scoreDescB a b || scoreDescB b a := by
    intro a b
    simp only [scoreDescB, Bool.or_eq_true, decide_eq_true_eq]
    omega
  constructor
  · have hp := List.sorted_mergeSort htrans htotal
      ((buildUnique seen ms batch []).map Prod.snd)
    refine List.Pairwise.imp ?_ hp
    intro a b hab
    simpa [scoreDescB] using hab
  · intro s
    have hcsub : List.Sublist
        (((buildUnique seen ms batch []).map Prod.snd).filter (fun x => getScore x == s))
        ((buildUnique seen ms batch []).map Prod.snd) :=
      List.filter_sublist _
    have hcp : ∀ x ∈ ((buildUnique seen ms batch []).map Prod.snd).filter
        (fun x => getScore x == s), (getScore x == s) = true :=
      fun x hx => (List.mem_filter.mp hx).2
    have hcpair : (((buildUnique seen ms batch []).map Prod.snd).filter
        (fun x => getScore x == s)).Pairwise (fun a b => scoreDescB a b) := by
      refine List.pairwise_of_forall_mem_list ?_
      intro a ha b hb
      have h1 := (List.mem_filter.mp ha).2
      have h2 := (List.mem_filter.mp hb).2
      simp only [beq_iff_eq] at h1 h2
      simp [scoreDescB, h1, h2]
    have hsub2 := List.sublist_mergeSort htrans htotal hcpair hcsub
    have hperm : List.Perm
        (((buildUnique seen ms batch []).map Prod.snd).mergeSort scoreDescB)
        ((buildUnique seen ms batch []).map Prod.snd) :=
      List.mergeSort_perm _ _
    have hpf := hperm.filter (fun x => getScore x == s)
    have hsub3 : List.Sublist
        (((buildUnique seen ms batch []).map Prod.snd).filter (fun x => getScore x == s))
        ((((buildUnique seen ms batch []).map Prod.snd).mergeSort scoreDescB).filter
          (fun x => getScore x == s)) := by
      have h4 := hsub2.filter (fun x => getScore x == s)
      rw [List.filter_filter] at h4
      simpa only [Bool.and_self] using h4
    have hlen : (((buildUnique seen ms batch []).map Prod.snd).filter
        (fun x => getScore x == s)).length =
        ((((buildUnique seen ms batch []).map Prod.snd).mergeSort scoreDescB).filter
          (fun x => getScore x == s)).length :=
      hpf.length_eq.symm
    exact (hsub3.eq_of_length hlen).symm

theorem within_batch_dedup_amended_witness :
    (((filter_and_rank [weakDup, strongDup] [] ts0 25).1).map article_hash).Nodup ∧
    (∃ a, firstAccepted [] 25 [weakDup, strongDup] (article_hash (score_article strongDup))
        = some a ∧ score_article strongDup = score_article a) :=
  ⟨(within_batch_dedup_amended [weakDup, strongDup] [] ts0 25).1,
   (within_batch_dedup_amended [weakDup, strongDup] [] ts0 25).2 (score_article strongDup)
     (by
       have hu : buildUnique [] 25 [weakDup, strongDup] []
           = [(article_hash strongDup, score_article strongDup)] := by decide
       simp [filter_and_rank, hu])⟩
